import Mathlib

set_option autoImplicit false

/-!
Verification of the whence location-processing pipeline.

The Go source computes geographic distances with `haversineMeters` and
perpendicular deviations with `perpendicularDistanceDeg`, both over IEEE
float64.  The path algorithms (`RemoveSpikes`, `PruneStationaryPoints`,
`SimplifyPath`, the timeline cluster merge) only compare those distances
against thresholds and against each other, so here they are embedded
generically over an abstract rational-valued distance function with the Go
call signature (`lat1 lon1 lat2 lon2`), and a perpendicular-distance
function for Douglas-Peucker.  All structural properties are proved for
every such distance function; the spec's concrete examples (which prescribe
distances such as 1000 m / 10 m, never raw coordinates) are instantiated
with explicit distance tables.
-/

/-- PathPoint mirrors the Go struct `PathPoint` (paths.go): latitude and
longitude in degrees, and a unix-seconds timestamp. -/
structure PathPoint where
  lat : ℚ
  lon : ℚ
  timestamp : ℤ
  deriving DecidableEq, Repr

instance : Inhabited PathPoint := ⟨⟨0, 0, 0⟩⟩

/-- DistFn is the call shape of Go's `haversineMeters(lat1, lon1, lat2, lon2)`. -/
def DistFn : Type := ℚ → ℚ → ℚ → ℚ → ℚ

/-- SpikeResult mirrors the Go struct `SpikeResult` (paths.go): kept points
and removed spike points. -/
structure SpikeResult where
  points : List PathPoint
  removed : List PathPoint
  deriving DecidableEq, Repr

/-- Loop body of Go's `RemoveSpikes` (paths.go lines 199-219).  `A` is the
last kept point; the loop runs while at least two points remain (the Go loop
runs `i` up to `len-2`, with `C = points[i+1]`), and the final point is
appended unconditionally afterwards.  Returns (kept tail, removed). -/
def removeSpikesAux (d : DistFn) (t : ℚ) : PathPoint → List PathPoint →
    List PathPoint × List PathPoint
  | _, [] => ([], [])
  | _, [lastPt] => ([lastPt], [])
  | A, B :: C :: tl =>
    let distAB := d A.lat A.lon B.lat B.lon
    let distBC := d B.lat B.lon C.lat C.lon
    let distAC := d A.lat A.lon C.lat C.lon
    if distAB > t ∧ distBC > t ∧ distAC < t then
      let r := removeSpikesAux d t A (C :: tl)
      (r.1, B :: r.2)
    else
      let r := removeSpikesAux d t B (C :: tl)
      (B :: r.1, r.2)

/-- RemoveSpikes mirrors Go's `RemoveSpikes` (paths.go lines 189-225):
inputs of length < 3 are returned with no removals; otherwise the first
point is always kept and each interior point is compared against the last
kept point `A` and the next raw point `C`. -/
def RemoveSpikes (d : DistFn) (points : List PathPoint) (thresholdMeters : ℚ) :
    SpikeResult :=
  match points with
  | [] => ⟨[], []⟩
  | p0 :: rest =>
    if (p0 :: rest).length < 3 then ⟨p0 :: rest, []⟩
    else
      let r := removeSpikesAux d thresholdMeters p0 rest
      ⟨p0 :: r.1, r.2⟩

/-- StationaryCluster mirrors the Go struct `StationaryCluster` (paths.go):
the anchor position (first point admitted; the timeline revision names these
fields CentroidLat/CentroidLon after the merge step updates them), the
timestamp range and the raw point count. -/
structure StationaryCluster where
  lat : ℚ
  lon : ℚ
  startTS : ℤ
  endTS : ℤ
  pointCount : ℕ
  deriving DecidableEq, Repr

/-- PruneResult mirrors the Go struct `PruneResult` (paths.go). -/
structure PruneResult where
  points : List PathPoint
  removed : List PathPoint
  clusters : List StationaryCluster
  deriving DecidableEq, Repr

/-- Representative point emitted when a cluster is finalized (paths.go lines
146-150 and 165-169): the anchor position with the cluster's start time. -/
def clusterRep (c : StationaryCluster) : PathPoint :=
  ⟨c.lat, c.lon, c.startTS⟩

/-- Cluster extension when a point is absorbed (paths.go lines 137-142):
the end timestamp moves to the point, the count grows, the anchor position
is untouched. -/
def absorbInto (cluster : StationaryCluster) (pt : PathPoint) :
    StationaryCluster :=
  { cluster with endTS := pt.timestamp, pointCount := cluster.pointCount + 1 }

/-- Fresh cluster opened at a point (paths.go lines 125-131 and 153-160). -/
def newClusterAt (pt : PathPoint) : StationaryCluster :=
  ⟨pt.lat, pt.lon, pt.timestamp, pt.timestamp, 1⟩

/-- Loop body of Go's `PruneStationaryPoints` (paths.go lines 133-170),
carrying the open cluster.  A point strictly within `minDist` of the open
cluster's anchor is absorbed (endTS extended, count incremented, point
recorded as removed); otherwise the open cluster is finalized (emitting its
representative point) and a new cluster is opened at the point.  The open
cluster is finalized when the input ends. -/
def pruneAux (d : DistFn) (minDist : ℚ) :
    StationaryCluster → List PathPoint → PruneResult
  | cluster, [] => ⟨[clusterRep cluster], [], [cluster]⟩
  | cluster, pt :: tl =>
    let dist := d cluster.lat cluster.lon pt.lat pt.lon
    if dist < minDist then
      let r := pruneAux d minDist (absorbInto cluster pt) tl
      ⟨r.points, pt :: r.removed, r.clusters⟩
    else
      let r := pruneAux d minDist (newClusterAt pt) tl
      ⟨clusterRep cluster :: r.points, r.removed, cluster :: r.clusters⟩

/-- PruneStationaryPoints mirrors Go's `PruneStationaryPoints` (paths.go
lines 103-177).  Empty input gives the empty result; a singleton input
returns the original point and one singleton cluster; otherwise the scan of
`pruneAux` starts with a cluster anchored at the first point. -/
def PruneStationaryPoints (d : DistFn) (points : List PathPoint)
    (minDistMeters : ℚ) : PruneResult :=
  match points with
  | [] => ⟨[], [], []⟩
  | [p] => ⟨[p], [], [newClusterAt p]⟩
  | p0 :: rest => pruneAux d minDistMeters (newClusterAt p0) rest

/-- Constant `mergeDistanceMeters` of the timeline handler
(handleAPITimeline). -/
def mergeDistanceMeters : ℚ := 500

/-- Constant `mergeMaxGapSeconds` of the timeline handler: 30 minutes. -/
def mergeMaxGapSeconds : ℤ := 30 * 60

/-- One iteration of the cluster-merge loop of `handleAPITimeline`
(timeline revision, lines 816-841): with a non-empty accumulator, the
incoming cluster merges into the accumulator's last cluster iff the distance
between their positions is ≤ mergeDistanceMeters and the gap from the last
cluster's end to the incoming cluster's start is ≤ mergeMaxGapSeconds; the
merged position is the point-count-weighted average, the end time and count
are taken over. -/
def mergeClustersStep (d : DistFn) (mergedClusters : List StationaryCluster)
    (cluster : StationaryCluster) : List StationaryCluster :=
  match mergedClusters.getLast? with
  | none => [cluster]
  | some lastC =>
    let dist := d lastC.lat lastC.lon cluster.lat cluster.lon
    let gap := cluster.startTS - lastC.endTS
    if dist ≤ mergeDistanceMeters ∧ gap ≤ mergeMaxGapSeconds then
      let totalPoints := lastC.pointCount + cluster.pointCount
      mergedClusters.dropLast ++
        [{ lastC with
            lat := (lastC.lat * lastC.pointCount + cluster.lat * cluster.pointCount)
              / totalPoints,
            lon := (lastC.lon * lastC.pointCount + cluster.lon * cluster.pointCount)
              / totalPoints,
            endTS := cluster.endTS,
            pointCount := totalPoints }]
    else
      mergedClusters ++ [cluster]

/-- Cluster-merge loop of `handleAPITimeline`: left-to-right fold starting
from the empty accumulator, each cluster considered against the most
recently merged cluster only. -/
def mergeClusters (d : DistFn) (clusters : List StationaryCluster) :
    List StationaryCluster :=
  clusters.foldl (mergeClustersStep d) []

/-- PerpFn is the call shape of Go's
`perpendicularDistanceDeg(point, lineStart, lineEnd)`. -/
def PerpFn : Type := PathPoint → PathPoint → PathPoint → ℚ

/-- Maximum-deviation scan of Go's `SimplifyPath` (paths.go lines 17-29):
fold over the interior points carrying their index, updating the running
(maxDist, maxIdx) pair exactly when the deviation strictly exceeds the
running maximum (so ties keep the first occurrence).  Both accumulators
start at 0, and indexing starts at 1, as in the Go loop. -/
def findMaxAux (pd : PerpFn) (first lst : PathPoint) :
    List PathPoint → ℕ → ℚ × ℕ → ℚ × ℕ
  | [], _, acc => acc
  | p :: tl, i, acc =>
    let dist := pd p first lst
    if dist > acc.1 then findMaxAux pd first lst tl (i + 1) (dist, i)
    else findMaxAux pd first lst tl (i + 1) acc

/-- SimplifyPath mirrors Go's `SimplifyPath` (paths.go lines 11-45):
inputs of length ≤ 2 are returned unchanged; otherwise the interior point of
maximum perpendicular deviation from the chord (first, last) splits the list
and both halves are simplified recursively (dropping the duplicated split
point), and if no deviation exceeds the tolerance only the two endpoints
remain.  The inner index guard is unreachable whenever `0 ≤ tolerance`
(then `maxDist > tolerance` forces at least one strict update, placing
`maxIdx` strictly inside the list); for a negative tolerance with all
deviations zero the Go code recurses on the whole input and never
terminates, which a total model cannot reproduce, so that branch returns the
endpoints and the theorems assume a nonnegative tolerance. -/
def simplifyMax (pd : PerpFn) (points : List PathPoint) : ℚ × ℕ :=
  findMaxAux pd points.headI points.getLastI (points.drop 1).dropLast 1 (0, 0)

/-- SimplifyPath recursion, see the comment on `simplifyMax`. -/
def SimplifyPath (pd : PerpFn) (points : List PathPoint) (tolerance : ℚ) :
    List PathPoint :=
  if points.length ≤ 2 then points
  else
    if (simplifyMax pd points).1 > tolerance then
      if h : 1 ≤ (simplifyMax pd points).2 ∧
          (simplifyMax pd points).2 + 1 < points.length then
        let left := SimplifyPath pd (points.take ((simplifyMax pd points).2 + 1)) tolerance
        let right := SimplifyPath pd (points.drop (simplifyMax pd points).2) tolerance
        left.dropLast ++ right
      else [points.headI, points.getLastI]
    else [points.headI, points.getLastI]
termination_by points.length
decreasing_by
  · simp only [List.length_take]
    omega
  · simp only [List.length_drop]
    omega

/-- ImportConfig mirrors the Go struct `ImportConfig` (backfill.go): optional
time bounds (unix seconds here), camera allow-list, user id. -/
structure ImportConfig where
  after : Option ℤ
  before : Option ℤ
  cameras : List String
  userID : String
  deriving DecidableEq, Repr

/-- ImportJob mirrors the Go struct `ImportJob` (db.go lines 360-373). -/
structure ImportJob where
  id : String
  status : String
  startedAt : ℤ
  completedAt : Option ℤ
  total : Option ℤ
  processed : ℤ
  imported : ℤ
  skipped : ℤ
  errors : ℤ
  lastPage : ℤ
  configJSON : String
  lastError : Option String
  deriving DecidableEq, Repr

/-- BackfillError mirrors the error outcomes of `ResumeImport`
(backfill.go): the two named errors plus a config-unmarshal failure. -/
inductive BackfillError where
  | jobNotFound
  | jobNotResumable
  | configUnmarshal
  deriving DecidableEq, Repr

/-- ResumeSuccess records the effects of a successful `ResumeImport`: the
job row written back to the store (status "running", error cleared), and the
worker launch `runImport(ctx, jobID, config, job.LastPage+1)` with the
config parsed from the job's saved ConfigJSON. -/
structure ResumeSuccess where
  updatedJob : ImportJob
  startPage : ℤ
  config : ImportConfig
  deriving DecidableEq, Repr

/-- ResumeImport mirrors Go's `ResumeImport` (backfill.go lines 289-321)
over an abstract job store `getJob` (the `GetImportJob` collaborator, `none`
meaning no such row) and an abstract JSON decoder `parse` for the saved
config.  On any error no store write and no worker launch occurs; on success
the single store write and the worker start page are returned. -/
def ResumeImport (getJob : String → Option ImportJob)
    (parse : String → Option ImportConfig) (jobID : String) :
    Except BackfillError ResumeSuccess :=
  match getJob jobID with
  | none => .error .jobNotFound
  | some job =>
    if job.status ≠ "interrupted" ∧ job.status ≠ "failed" then
      .error .jobNotResumable
    else
      match parse job.configJSON with
      | none => .error .configUnmarshal
      | some config =>
        .ok ⟨{ job with status := "running", lastError := none },
          job.lastPage + 1, config⟩

/-- markInterruptedJobs mirrors Go's `markInterruptedJobs` (backfill.go
lines 133-150): every persisted job whose status is "running" is rewritten
with status "interrupted" and last error "server restarted"; all other jobs
are left untouched. -/
def markInterruptedJobs (jobs : List ImportJob) : List ImportJob :=
  jobs.map fun job =>
    if job.status = "running" then
      { job with status := "interrupted", lastError := some "server restarted" }
    else job

/-- BackfillManagerInit records the observable startup state of
`NewBackfillManager` (backfill.go lines 63-75): the set of launched worker
handles (Go: the `jobs` map of cancel functions, created empty and not added
to during startup) and the persisted job list after crash recovery. -/
structure BackfillManagerInit where
  activeWorkers : List String
  storedJobs : List ImportJob
  deriving DecidableEq, Repr

/-- NewBackfillManager mirrors the startup path of Go's `NewBackfillManager`:
it creates an empty worker registry and runs `markInterruptedJobs` over the
persisted jobs; no worker is launched. -/
def NewBackfillManager (persistedJobs : List ImportJob) : BackfillManagerInit :=
  ⟨[], markInterruptedJobs persistedJobs⟩

/-- ImmichAssetM is the slice of an Immich asset that the preview loop
reads: whether `HasGPS()` holds, the `DeviceIDFromExif()` string, and the
`GetTimestamp()` value (unix seconds). -/
structure ImmichAssetM where
  hasGPS : Bool
  deviceID : String
  timestamp : ℤ
  deriving DecidableEq, Repr

/-- CameraPreview mirrors the Go struct `CameraPreview` (backfill.go). -/
structure CameraPreview where
  deviceID : String
  count : ℤ
  earliest : ℤ
  latest : ℤ
  deriving DecidableEq, Repr

/-- PreviewProgress mirrors the Go struct `PreviewProgress` (backfill.go);
the error field is omitted since the model has no failing page fetches. -/
structure PreviewProgress where
  scanned : ℤ
  totalEstimated : ℤ
  percent : ℚ
  photosWithGPS : ℤ
  cameras : List CameraPreview
  complete : Bool
  deriving DecidableEq, Repr

/-- PreviewState is the accumulator of the preview scan: assets scanned,
GPS-bearing count, and per-device aggregates (Go keeps these in a map keyed
by device id; the model keeps an insertion-ordered association list). -/
structure PreviewState where
  scanned : ℤ
  photosWithGPS : ℤ
  cameras : List CameraPreview
  deriving DecidableEq, Repr

/-- Per-camera aggregate update of the preview loop (backfill.go lines
188-208): a first sighting opens the entry with both time bounds at the
asset timestamp, then the count is incremented and the bounds widened. -/
def updateCamera (deviceID : String) (ts : ℤ) :
    List CameraPreview → List CameraPreview
  | [] => [⟨deviceID, 1, ts, ts⟩]
  | cam :: tl =>
    if cam.deviceID = deviceID then
      { cam with
          count := cam.count + 1,
          earliest := min cam.earliest ts,
          latest := max cam.latest ts } :: tl
    else cam :: updateCamera deviceID ts tl

/-- Per-asset update of the preview loop (backfill.go lines 184-209). -/
def previewScanAsset (st : PreviewState) (asset : ImmichAssetM) : PreviewState :=
  let st := { st with scanned := st.scanned + 1 }
  if asset.hasGPS then
    { st with
        photosWithGPS := st.photosWithGPS + 1,
        cameras := updateCamera asset.deviceID asset.timestamp st.cameras }
  else st

/-- Progress snapshot emitted after one page (backfill.go lines 211-236):
while more pages remain and the page was non-empty the estimated total is
`max (scanned * 2) (scanned + 200)`; otherwise it is `scanned`. -/
def previewSnapshot (st : PreviewState) (pageLen : ℕ) (hasMore : Bool) :
    PreviewProgress :=
  let totalEstimate : ℤ :=
    if hasMore ∧ pageLen > 0 then max (st.scanned * 2) (st.scanned + 200)
    else st.scanned
  let percent : ℚ :=
    if totalEstimate > 0 then (st.scanned : ℚ) / (totalEstimate : ℚ) * 100 else 0
  ⟨st.scanned, totalEstimate, percent, st.photosWithGPS, st.cameras, !hasMore⟩

/-- Page loop of Go's `Preview` (backfill.go lines 170-241) over the
abstract asset source, given as the sequence of `SearchAssets` responses
(assets, hasMore) the client returns for pages 1, 2, ...; the loop stops
after the first page reporting no more.  Returns the emitted progress
snapshots in order.  The preview touches no persistence store: the model
takes none and returns only snapshots, matching the write-free Go code. -/
def previewLoop (st : PreviewState) :
    List (List ImmichAssetM × Bool) → List PreviewProgress
  | [] => []
  | (assets, hasMore) :: rest =>
    let st' := assets.foldl previewScanAsset st
    let snap := previewSnapshot st' assets.length hasMore
    if hasMore then snap :: previewLoop st' rest
    else [snap]

/-- Preview mirrors Go's `Preview`: the scan starts from the empty state. -/
def Preview (pages : List (List ImmichAssetM × Bool)) : List PreviewProgress :=
  previewLoop ⟨0, 0, []⟩ pages

/-- C6: `ResumeImport` succeeds only on a job whose status is "interrupted"
or "failed" — on any other status it returns the not-resumable error, with
no store write and no worker launch (the error outcome carries no effects in
the model, matching the Go early returns) — and on success it relaunches the
worker at page `lastPage + 1` using the config parsed from the job's
original saved ConfigJSON; in particular a job with `lastPage = 5` resumes
at page 6. -/
theorem C6_resume_import (getJob : String → Option ImportJob)
    (parse : String → Option ImportConfig) (jobID : String) (job : ImportJob)
    (hjob : getJob jobID = some job) :
    (job.status ≠ "interrupted" ∧ job.status ≠ "failed" →
      ResumeImport getJob parse jobID = .error .jobNotResumable) ∧
    (∀ cfg, (job.status = "interrupted" ∨ job.status = "failed") →
      parse job.configJSON = some cfg →
      ResumeImport getJob parse jobID =
        .ok ⟨{ job with status := "running", lastError := none },
          job.lastPage + 1, cfg⟩) := by
  constructor
  · intro h
    simp [ResumeImport, hjob, h]
  · intro cfg hstatus hparse
    have hcond : ¬(job.status ≠ "interrupted" ∧ job.status ≠ "failed") := by
      rcases hstatus with h | h <;> simp [h]
    simp [ResumeImport, hjob, hcond, hparse]

/-- jobInterruptedAt5 is a concrete interrupted job checkpointed at page 5. -/
def jobInterruptedAt5 : ImportJob :=
  ⟨"job-a", "interrupted", 100, none, none, 1000, 900, 100, 0, 5, "cfg-a",
    some "server restarted"⟩

/-- jobCompleted is a concrete completed job. -/
def jobCompleted : ImportJob :=
  ⟨"job-b", "completed", 100, some 200, none, 50, 40, 10, 0, 1, "cfg-b", none⟩

/-- jobStore is a concrete two-job store. -/
def jobStore : String → Option ImportJob := fun s =>
  if s = "job-a" then some jobInterruptedAt5
  else if s = "job-b" then some jobCompleted
  else none

/-- cfgA is the decoded form of the saved config "cfg-a". -/
def cfgA : ImportConfig := ⟨none, none, [], "user-1"⟩

/-- parseStore decodes only the saved config of the interrupted job. -/
def parseStore : String → Option ImportConfig := fun s =>
  if s = "cfg-a" then some cfgA else none

/-- Witness for C6: the interrupted job at lastPage 5 resumes at page 6 with
its original config, and resuming the completed job is rejected. -/
theorem C6_resume_import_witness :
    ResumeImport jobStore parseStore "job-b" = .error .jobNotResumable ∧
    ResumeImport jobStore parseStore "job-a" =
      .ok ⟨{ jobInterruptedAt5 with status := "running", lastError := none },
        6, cfgA⟩ := by
  constructor
  · exact (C6_resume_import jobStore parseStore "job-b" jobCompleted rfl).1
      (by decide)
  · exact (C6_resume_import jobStore parseStore "job-a" jobInterruptedAt5 rfl).2
      cfgA (Or.inl rfl) rfl

/-- C7: at manager startup every persisted job whose status is "running" is
rewritten to "interrupted" (with the error recorded), jobs in any other
status are left unchanged, and the worker registry stays empty — no job is
resumed as part of startup. -/
theorem C7_startup_recovery (persisted : List ImportJob) :
    (NewBackfillManager persisted).activeWorkers = [] ∧
    (NewBackfillManager persisted).storedJobs.length = persisted.length ∧
    (∀ i (hi : i < persisted.length)
        (hi' : i < (NewBackfillManager persisted).storedJobs.length),
      ((persisted.get ⟨i, hi⟩).status = "running" →
        (NewBackfillManager persisted).storedJobs.get ⟨i, hi'⟩ =
          { persisted.get ⟨i, hi⟩ with
              status := "interrupted", lastError := some "server restarted" }) ∧
      ((persisted.get ⟨i, hi⟩).status ≠ "running" →
        (NewBackfillManager persisted).storedJobs.get ⟨i, hi'⟩ =
          persisted.get ⟨i, hi⟩)) := by
  refine ⟨rfl, by simp [NewBackfillManager, markInterruptedJobs], ?_⟩
  intro i hi hi'
  rw [List.get_eq_getElem, List.get_eq_getElem]
  constructor
  · intro h
    simp only [NewBackfillManager, markInterruptedJobs, List.getElem_map]
    rw [if_pos h]
  · intro h
    simp only [NewBackfillManager, markInterruptedJobs, List.getElem_map]
    rw [if_neg h]

/-- jobRunning is a concrete job left running by a crashed process. -/
def jobRunning : ImportJob :=
  ⟨"job-r", "running", 100, none, none, 600, 500, 100, 0, 3, "cfg-r", none⟩

/-- Witness for C7: starting the manager over a store holding one running
and one completed job interrupts the first and keeps the second. -/
theorem C7_startup_recovery_witness :
    (NewBackfillManager [jobRunning, jobCompleted]).activeWorkers = [] ∧
    (NewBackfillManager [jobRunning, jobCompleted]).storedJobs.get
        ⟨0, by decide⟩ =
      { jobRunning with
          status := "interrupted", lastError := some "server restarted" } ∧
    (NewBackfillManager [jobRunning, jobCompleted]).storedJobs.get
        ⟨1, by decide⟩ = jobCompleted := by
  refine ⟨(C7_startup_recovery [jobRunning, jobCompleted]).1, ?_, ?_⟩
  · exact ((C7_startup_recovery [jobRunning, jobCompleted]).2.2 0 (by decide)
      (by decide)).1 rfl
  · exact ((C7_startup_recovery [jobRunning, jobCompleted]).2.2 1 (by decide)
      (by decide)).2 (by decide)

/-- Auxiliary: the estimate field of a snapshot, by unfolding. -/
theorem previewSnapshot_totalEstimated (st : PreviewState) (pageLen : ℕ)
    (hasMore : Bool) :
    (previewSnapshot st pageLen hasMore).totalEstimated =
      if hasMore ∧ pageLen > 0 then max (st.scanned * 2) (st.scanned + 200)
      else st.scanned := rfl

/-- Auxiliary: the scanned field of a snapshot, by unfolding. -/
theorem previewSnapshot_scanned (st : PreviewState) (pageLen : ℕ)
    (hasMore : Bool) :
    (previewSnapshot st pageLen hasMore).scanned = st.scanned := rfl

/-- Auxiliary: a preview snapshot at position `i` is `previewSnapshot` of
some intermediate state at page `i` of the response stream. -/
theorem previewLoop_get_eq (pages : List (List ImmichAssetM × Bool)) :
    ∀ (st : PreviewState) (i : ℕ) (hi : i < (previewLoop st pages).length)
      (hp : i < pages.length),
      ∃ st' : PreviewState,
        (previewLoop st pages).get ⟨i, hi⟩ =
          previewSnapshot st' (pages.get ⟨i, hp⟩).1.length
            (pages.get ⟨i, hp⟩).2 := by
  induction pages with
  | nil => intro st i hi hp; simp [previewLoop] at hi
  | cons page rest ih =>
    intro st i hi hp
    obtain ⟨assets, hasMore⟩ := page
    cases hasMore with
    | true =>
      cases i with
      | zero =>
        exact ⟨assets.foldl previewScanAsset st, rfl⟩
      | succ j =>
        have hj : j < (previewLoop (assets.foldl previewScanAsset st) rest).length := by
          simpa [previewLoop] using hi
        have hp' : j < rest.length := by simpa using hp
        obtain ⟨st', hst'⟩ := ih (assets.foldl previewScanAsset st) j hj hp'
        exact ⟨st', hst'⟩
    | false =>
      cases i with
      | zero =>
        exact ⟨assets.foldl previewScanAsset st, rfl⟩
      | succ j =>
        simp [previewLoop] at hi

/-- Auxiliary: the loop emits at most one snapshot per page. -/
theorem previewLoop_length_le (pages : List (List ImmichAssetM × Bool)) :
    ∀ st : PreviewState, (previewLoop st pages).length ≤ pages.length := by
  induction pages with
  | nil => intro st; simp [previewLoop]
  | cons page rest ih =>
    intro st
    obtain ⟨assets, hasMore⟩ := page
    cases hasMore with
    | true => simpa [previewLoop] using ih (assets.foldl previewScanAsset st)
    | false => simp [previewLoop]

/-- C8 (amended): each preview snapshot carries `complete = !hasMore` for
its page; while more pages remain and the page was non-empty the estimated
total equals `max (scanned + 200) (scanned * 2)`; once no more pages remain
— or when a page with more remaining came back empty — the estimated total
equals the number of assets scanned.  The model of `Preview` takes no
persistence store at all, matching the write-free Go code path. -/
theorem C8_preview_estimate (pages : List (List ImmichAssetM × Bool))
    (i : ℕ) (hi : i < (Preview pages).length) (hp : i < pages.length) :
    (((Preview pages).get ⟨i, hi⟩).complete = !(pages.get ⟨i, hp⟩).2) ∧
    ((pages.get ⟨i, hp⟩).2 = true ∧ (pages.get ⟨i, hp⟩).1 ≠ [] →
      ((Preview pages).get ⟨i, hi⟩).totalEstimated =
        max (((Preview pages).get ⟨i, hi⟩).scanned + 200)
          (((Preview pages).get ⟨i, hi⟩).scanned * 2)) ∧
    ((pages.get ⟨i, hp⟩).2 = false ∨ (pages.get ⟨i, hp⟩).1 = [] →
      ((Preview pages).get ⟨i, hi⟩).totalEstimated =
        ((Preview pages).get ⟨i, hi⟩).scanned) := by
  have hi' : i < (previewLoop ⟨0, 0, []⟩ pages).length := hi
  obtain ⟨st', hst'⟩ := previewLoop_get_eq pages ⟨0, 0, []⟩ i hi' hp
  have hst2 : (Preview pages).get ⟨i, hi⟩ =
      previewSnapshot st' (pages.get ⟨i, hp⟩).1.length (pages.get ⟨i, hp⟩).2 :=
    hst'
  rw [hst2]
  refine ⟨rfl, ?_, ?_⟩
  · rintro ⟨hmore, hne⟩
    have hlen : (pages.get ⟨i, hp⟩).1.length > 0 := List.length_pos.mpr hne
    rw [previewSnapshot_totalEstimated, previewSnapshot_scanned,
      if_pos ⟨hmore, hlen⟩, max_comm]
  · intro h
    rw [previewSnapshot_totalEstimated, previewSnapshot_scanned, if_neg ?_]
    rintro ⟨hmore, hlen⟩
    rcases h with h | h
    · rw [h] at hmore
      exact Bool.false_ne_true hmore
    · rw [h] at hlen
      simp at hlen

/-- Witness for C8 (amended): a two-page scan with three GPS-less assets on
the first page; the first snapshot (more pages remaining, page non-empty)
estimates max(3+200, 3·2) = 203, the second (no more pages) estimates 4. -/
theorem C8_preview_estimate_witness :
    ((Preview [([⟨false, "d", 0⟩, ⟨false, "d", 1⟩, ⟨false, "d", 2⟩], true),
        ([⟨false, "d", 3⟩], false)]).get ⟨0, by decide⟩).totalEstimated =
      max ((3 : ℤ) + 200) ((3 : ℤ) * 2) ∧
    ((Preview [([⟨false, "d", 0⟩, ⟨false, "d", 1⟩, ⟨false, "d", 2⟩], true),
        ([⟨false, "d", 3⟩], false)]).get ⟨1, by decide⟩).totalEstimated =
      (4 : ℤ) := by
  constructor
  · have h := (C8_preview_estimate
      [([⟨false, "d", 0⟩, ⟨false, "d", 1⟩, ⟨false, "d", 2⟩], true),
        ([⟨false, "d", 3⟩], false)] 0 (by decide) (by decide)).2.1
      ⟨rfl, by decide⟩
    rw [h]
    decide
  · have h := (C8_preview_estimate
      [([⟨false, "d", 0⟩, ⟨false, "d", 1⟩, ⟨false, "d", 2⟩], true),
        ([⟨false, "d", 3⟩], false)] 1 (by decide) (by decide)).2.2
      (Or.inl rfl)
    rw [h]
    decide

/-- Counterexample for C8 as stated: a first page that comes back empty
while more pages remain yields a snapshot with estimated total 0 (the Go
`else` branch sets it to `scanned`), not max(scanned+200, scanned·2) = 200
as the claim requires for every page while more pages remain. -/
theorem C8_counterexample :
    ((Preview [([], true)]).get ⟨0, by decide⟩).complete = false ∧
    ((Preview [([], true)]).get ⟨0, by decide⟩).scanned = 0 ∧
    ((Preview [([], true)]).get ⟨0, by decide⟩).totalEstimated = 0 ∧
    ((0 : ℤ) ≠ max ((0 : ℤ) + 200) ((0 : ℤ) * 2)) := by
  decide

/-- ptA, ptB, ptC are the three concrete points of the spike examples. -/
def ptA : PathPoint := ⟨0, 0, 0⟩

/-- ptB sits between ptA and ptC. -/
def ptB : PathPoint := ⟨1, 0, 60⟩

/-- ptC follows ptB. -/
def ptC : PathPoint := ⟨2, 0, 120⟩

/-- Auxiliary: sublists are preserved by `dropLast`. -/
theorem sublist_dropLast {α : Type} {l₁ l₂ : List α}
    (h : List.Sublist l₁ l₂) : List.Sublist l₁.dropLast l₂.dropLast := by
  have := (h.reverse.tail).reverse
  simpa [List.tail_reverse] using this

/-- Auxiliary: `dropLast` after `take (n+1)` is `take n` inside the list. -/
theorem dropLast_take_succ {α : Type} {l : List α} {n : ℕ}
    (h : n < l.length) : (l.take (n + 1)).dropLast = l.take n := by
  rw [List.dropLast_eq_take]
  simp [List.take_take]
  omega

/-- Auxiliary: the head of a non-empty list is a member. -/
theorem headI_mem_of_ne_nil {α : Type} [Inhabited α] {l : List α}
    (h : l ≠ []) : l.headI ∈ l := by
  cases l with
  | nil => exact absurd rfl h
  | cons a t => exact List.mem_cons_self a t

/-- Auxiliary: the last element of a non-empty list is a member. -/
theorem getLastI_mem_of_ne_nil {α : Type} [Inhabited α] {l : List α}
    (h : l ≠ []) : l.getLastI ∈ l := by
  rw [List.getLastI_eq_getLast?, List.getLast?_eq_getLast _ h, Option.iget_some]
  exact List.getLast_mem h

/-- Auxiliary: `[head, last]` is a sublist of any list of length ≥ 2. -/
theorem headI_getLastI_sublist {α : Type} [Inhabited α] {l : List α}
    (h : 2 ≤ l.length) : List.Sublist [l.headI, l.getLastI] l := by
  cases l with
  | nil => simp at h
  | cons a t =>
    have ht : t ≠ [] := by
      intro he
      rw [he] at h
      simp at h
    have hlast : (a :: t).getLastI = t.getLastI := by
      rw [List.getLastI_eq_getLast?, List.getLastI_eq_getLast?,
        List.getLast?_eq_getLast t ht]
      cases t with
      | nil => exact absurd rfl ht
      | cons b u =>
        rw [List.getLast?_cons_cons, List.getLast?_eq_getLast (b :: u) ht]
    show List.Sublist ((a :: t).headI :: [(a :: t).getLastI]) (a :: t)
    rw [show (a :: t).headI = a from rfl, hlast]
    refine List.Sublist.cons₂ a ?_
    rw [List.getLastI_eq_getLast?, List.getLast?_eq_getLast t ht,
      Option.iget_some]
    exact List.singleton_sublist.mpr (List.getLast_mem ht)

/-- Auxiliary: head of an append with non-empty left part. -/
theorem headI_append_of_ne_nil {α : Type} [Inhabited α] {l₁ l₂ : List α}
    (h : l₁ ≠ []) : (l₁ ++ l₂).headI = l₁.headI := by
  cases l₁ with
  | nil => exact absurd rfl h
  | cons a t => rfl

/-- Auxiliary: last of an append with non-empty right part. -/
theorem getLastI_append_of_ne_nil {α : Type} [Inhabited α] {l₁ l₂ : List α}
    (h : l₂ ≠ []) : (l₁ ++ l₂).getLastI = l₂.getLastI := by
  rw [List.getLastI_eq_getLast?, List.getLastI_eq_getLast?,
    List.getLast?_append_of_ne_nil l₁ h]

/-- Auxiliary: `dropLast` of a list of length ≥ 2 is non-empty. -/
theorem dropLast_ne_nil_of_two_le {α : Type} {l : List α}
    (h : 2 ≤ l.length) : l.dropLast ≠ [] := by
  intro he
  have := congrArg List.length he
  simp [List.length_dropLast] at this
  omega

/-- Auxiliary: `dropLast` keeps the head of a list of length ≥ 2. -/
theorem headI_dropLast_of_two_le {α : Type} [Inhabited α] {l : List α}
    (h : 2 ≤ l.length) : l.dropLast.headI = l.headI := by
  cases l with
  | nil => simp at h
  | cons a t =>
    cases t with
    | nil => simp at h
    | cons b u => rfl

/-- Auxiliary: `take n` keeps the head for `1 ≤ n`. -/
theorem headI_take_of_one_le {α : Type} [Inhabited α] {l : List α} {n : ℕ}
    (h : 1 ≤ n) : (l.take n).headI = l.headI := by
  cases l with
  | nil => simp
  | cons a t =>
    cases n with
    | zero => omega
    | succ m => rfl

/-- Auxiliary: `drop n` keeps the last element while it stays non-empty. -/
theorem getLastI_drop_of_lt {α : Type} [Inhabited α] {l : List α} {n : ℕ}
    (h : n < l.length) : (l.drop n).getLastI = l.getLastI := by
  rw [List.getLastI_eq_getLast?, List.getLastI_eq_getLast?]
  congr 1
  induction l generalizing n with
  | nil => simp at h
  | cons a t ih =>
    cases n with
    | zero => simp
    | succ m =>
      have hm : m < t.length := by simpa using h
      have ht : t ≠ [] := by
        intro he
        rw [he] at hm
        simp at hm
      rw [List.drop_succ_cons, ih hm]
      cases t with
      | nil => exact absurd rfl ht
      | cons b u => exact (List.getLast?_cons_cons).symm

/-- Auxiliary: the maximum scan either returns its accumulator unchanged or
an index among those it visited. -/
theorem findMaxAux_cases (pd : PerpFn) (first lst : PathPoint) :
    ∀ (l : List PathPoint) (i : ℕ) (acc : ℚ × ℕ),
      findMaxAux pd first lst l i acc = acc ∨
      (i ≤ (findMaxAux pd first lst l i acc).2 ∧
        (findMaxAux pd first lst l i acc).2 < i + l.length) := by
  intro l
  induction l with
  | nil =>
    intro i acc
    exact Or.inl rfl
  | cons p tl ih =>
    intro i acc
    by_cases hup : pd p first lst > acc.1
    · have heq : findMaxAux pd first lst (p :: tl) i acc =
          findMaxAux pd first lst tl (i + 1) (pd p first lst, i) := by
        simp only [findMaxAux, if_pos hup]
      rw [heq]
      rcases ih (i + 1) (pd p first lst, i) with h | h
      · rw [h]
        right
        simp only [List.length_cons]
        omega
      · right
        simp only [List.length_cons]
        omega
    · have heq : findMaxAux pd first lst (p :: tl) i acc =
          findMaxAux pd first lst tl (i + 1) acc := by
        simp only [findMaxAux, if_neg hup]
      rw [heq]
      rcases ih (i + 1) acc with h | h
      · exact Or.inl h
      · right
        simp only [List.length_cons]
        omega

/-- Auxiliary: if the accumulator is never beaten the scan returns it. -/
theorem findMaxAux_fst_zero (pd : PerpFn) (first lst : PathPoint)
    (l : List PathPoint) (i : ℕ) :
    findMaxAux pd first lst l i (0, 0) = (0, 0) ∨
    0 < (findMaxAux pd first lst l i (0, 0)).1 := by
  induction l generalizing i with
  | nil => exact Or.inl rfl
  | cons p tl ih =>
    by_cases hup : pd p first lst > (0 : ℚ)
    · right
      have heq : findMaxAux pd first lst (p :: tl) i (0, 0) =
          findMaxAux pd first lst tl (i + 1) (pd p first lst, i) := by
        simp only [findMaxAux, if_pos hup]
      rw [heq]
      have hmono : ∀ (l' : List PathPoint) (j : ℕ) (acc : ℚ × ℕ),
          acc.1 ≤ (findMaxAux pd first lst l' j acc).1 := by
        intro l'
        induction l' with
        | nil => intro j acc; exact le_refl _
        | cons q tl' ih' =>
          intro j acc
          by_cases hq : pd q first lst > acc.1
          · have heq' : findMaxAux pd first lst (q :: tl') j acc =
                findMaxAux pd first lst tl' (j + 1) (pd q first lst, j) := by
              simp only [findMaxAux, if_pos hq]
            rw [heq']
            exact le_trans (le_of_lt hq) (ih' (j + 1) (pd q first lst, j))
          · have heq' : findMaxAux pd first lst (q :: tl') j acc =
                findMaxAux pd first lst tl' (j + 1) acc := by
              simp only [findMaxAux, if_neg hq]
            rw [heq']
            exact ih' (j + 1) acc
      exact lt_of_lt_of_le hup (hmono tl (i + 1) (pd p first lst, i))
    · have heq : findMaxAux pd first lst (p :: tl) i (0, 0) =
          findMaxAux pd first lst tl (i + 1) (0, 0) := by
        simp only [findMaxAux, if_neg hup]
      rw [heq]
      exact ih (i + 1)

/-- Auxiliary: when the maximum deviation beats a nonnegative tolerance, the
split index is strictly inside the list. -/
theorem simplifyMax_bounds (pd : PerpFn) (pts : List PathPoint) (tol : ℚ)
    (h3 : 2 < pts.length) (h0 : 0 ≤ tol)
    (hgt : (simplifyMax pd pts).1 > tol) :
    1 ≤ (simplifyMax pd pts).2 ∧ (simplifyMax pd pts).2 + 1 < pts.length := by
  have hlen : ((pts.drop 1).dropLast).length = pts.length - 2 := by
    simp only [List.length_dropLast, List.length_drop]
    omega
  rcases findMaxAux_cases pd pts.headI pts.getLastI ((pts.drop 1).dropLast) 1
      (0, 0) with h | h
  · exfalso
    have : (simplifyMax pd pts).1 = 0 := by
      rw [show simplifyMax pd pts =
        findMaxAux pd pts.headI pts.getLastI ((pts.drop 1).dropLast) 1 (0, 0)
        from rfl, h]
    rw [this] at hgt
    exact absurd (lt_of_le_of_lt h0 hgt) (lt_irrefl 0)
  · rw [show simplifyMax pd pts =
      findMaxAux pd pts.headI pts.getLastI ((pts.drop 1).dropLast) 1 (0, 0)
      from rfl]
    rw [hlen] at h
    omega

/-- Auxiliary: unfolding `SimplifyPath` on short inputs. -/
theorem SimplifyPath_of_le_two (pd : PerpFn) (pts : List PathPoint) (tol : ℚ)
    (h : pts.length ≤ 2) : SimplifyPath pd pts tol = pts := by
  rw [SimplifyPath, if_pos h]

/-- Auxiliary: unfolding `SimplifyPath` when every interior deviation is
within tolerance — only the endpoints remain. -/
theorem SimplifyPath_of_flat (pd : PerpFn) (pts : List PathPoint) (tol : ℚ)
    (h2 : ¬pts.length ≤ 2) (hle : ¬(simplifyMax pd pts).1 > tol) :
    SimplifyPath pd pts tol = [pts.headI, pts.getLastI] := by
  rw [SimplifyPath, if_neg h2, if_neg hle]

/-- Auxiliary: unfolding `SimplifyPath` in the recursive case. -/
theorem SimplifyPath_of_split (pd : PerpFn) (pts : List PathPoint) (tol : ℚ)
    (h2 : ¬pts.length ≤ 2) (hgt : (simplifyMax pd pts).1 > tol)
    (hb : 1 ≤ (simplifyMax pd pts).2 ∧
      (simplifyMax pd pts).2 + 1 < pts.length) :
    SimplifyPath pd pts tol =
      (SimplifyPath pd (pts.take ((simplifyMax pd pts).2 + 1)) tol).dropLast ++
        SimplifyPath pd (pts.drop ((simplifyMax pd pts).2)) tol := by
  rw [SimplifyPath]
  rw [if_neg h2, if_pos hgt, dif_pos hb]

/-- Auxiliary: unfolding `SimplifyPath` in the degenerate guard case (never
reached for a nonnegative tolerance; the Go original does not terminate
here). -/
theorem SimplifyPath_of_degen (pd : PerpFn) (pts : List PathPoint) (tol : ℚ)
    (h2 : ¬pts.length ≤ 2) (hgt : (simplifyMax pd pts).1 > tol)
    (hb : ¬(1 ≤ (simplifyMax pd pts).2 ∧
      (simplifyMax pd pts).2 + 1 < pts.length)) :
    SimplifyPath pd pts tol = [pts.headI, pts.getLastI] := by
  rw [SimplifyPath]
  rw [if_neg h2, if_pos hgt, dif_neg hb]

/-- Auxiliary: the simplified form of a list of length ≥ 2 again has length
≥ 2. -/
theorem simplify_two_le (pd : PerpFn) (tol : ℚ) :
    ∀ (n : ℕ) (pts : List PathPoint), pts.length ≤ n → 2 ≤ pts.length →
      2 ≤ (SimplifyPath pd pts tol).length := by
  intro n
  induction n with
  | zero =>
    intro pts h1 h2
    omega
  | succ n ih =>
    intro pts h1 h2
    by_cases hsmall : pts.length ≤ 2
    · rw [SimplifyPath_of_le_two pd pts tol hsmall]
      exact h2
    · by_cases hgt : (simplifyMax pd pts).1 > tol
      · by_cases hb : 1 ≤ (simplifyMax pd pts).2 ∧
            (simplifyMax pd pts).2 + 1 < pts.length
        · rw [SimplifyPath_of_split pd pts tol hsmall hgt hb]
          have hL : 2 ≤ (SimplifyPath pd
              (pts.take ((simplifyMax pd pts).2 + 1)) tol).length := by
            apply ih
            · simp only [List.length_take]
              omega
            · simp only [List.length_take]
              omega
          have hR : 2 ≤ (SimplifyPath pd
              (pts.drop ((simplifyMax pd pts).2)) tol).length := by
            apply ih
            · simp only [List.length_drop]
              omega
            · simp only [List.length_drop]
              omega
          simp only [List.length_append, List.length_dropLast]
          omega
        · rw [SimplifyPath_of_degen pd pts tol hsmall hgt hb]
          simp
      · rw [SimplifyPath_of_flat pd pts tol hsmall hgt]
        simp

/-- Auxiliary: the simplified list is a sublist of the input. -/
theorem simplify_sublist (pd : PerpFn) (tol : ℚ) :
    ∀ (n : ℕ) (pts : List PathPoint), pts.length ≤ n →
      List.Sublist (SimplifyPath pd pts tol) pts := by
  intro n
  induction n with
  | zero =>
    intro pts h1
    have : pts.length ≤ 2 := by omega
    rw [SimplifyPath_of_le_two pd pts tol this]
  | succ n ih =>
    intro pts h1
    by_cases hsmall : pts.length ≤ 2
    · rw [SimplifyPath_of_le_two pd pts tol hsmall]
    · have h2 : 2 ≤ pts.length := by omega
      by_cases hgt : (simplifyMax pd pts).1 > tol
      · by_cases hb : 1 ≤ (simplifyMax pd pts).2 ∧
            (simplifyMax pd pts).2 + 1 < pts.length
        · rw [SimplifyPath_of_split pd pts tol hsmall hgt hb]
          have hL := ih (pts.take ((simplifyMax pd pts).2 + 1))
            (by simp only [List.length_take]; omega)
          have hR := ih (pts.drop ((simplifyMax pd pts).2))
            (by simp only [List.length_drop]; omega)
          have e1 : (pts.take ((simplifyMax pd pts).2 + 1)).dropLast =
              pts.take ((simplifyMax pd pts).2) :=
            dropLast_take_succ (by omega)
          have hL' := sublist_dropLast hL
          rw [e1] at hL'
          have hcat := hL'.append hR
          rw [List.take_append_drop] at hcat
          exact hcat
        · rw [SimplifyPath_of_degen pd pts tol hsmall hgt hb]
          exact headI_getLastI_sublist h2
      · rw [SimplifyPath_of_flat pd pts tol hsmall hgt]
        exact headI_getLastI_sublist h2

/-- Auxiliary: simplification keeps the first input point first. -/
theorem simplify_headI (pd : PerpFn) (tol : ℚ) :
    ∀ (n : ℕ) (pts : List PathPoint), pts.length ≤ n → pts ≠ [] →
      (SimplifyPath pd pts tol).headI = pts.headI := by
  intro n
  induction n with
  | zero =>
    intro pts h1 hne
    have : pts.length ≤ 2 := by omega
    rw [SimplifyPath_of_le_two pd pts tol this]
  | succ n ih =>
    intro pts h1 hne
    by_cases hsmall : pts.length ≤ 2
    · rw [SimplifyPath_of_le_two pd pts tol hsmall]
    · by_cases hgt : (simplifyMax pd pts).1 > tol
      · by_cases hb : 1 ≤ (simplifyMax pd pts).2 ∧
            (simplifyMax pd pts).2 + 1 < pts.length
        · rw [SimplifyPath_of_split pd pts tol hsmall hgt hb]
          have hLlen : 2 ≤ (SimplifyPath pd
              (pts.take ((simplifyMax pd pts).2 + 1)) tol).length := by
            apply simplify_two_le pd tol n
            · simp only [List.length_take]
              omega
            · simp only [List.length_take]
              omega
          rw [headI_append_of_ne_nil (dropLast_ne_nil_of_two_le hLlen)]
          rw [headI_dropLast_of_two_le hLlen]
          rw [ih (pts.take ((simplifyMax pd pts).2 + 1))
            (by simp only [List.length_take]; omega)
            (by
              intro he
              have := congrArg List.length he
              simp only [List.length_take, List.length_nil] at this
              omega)]
          exact headI_take_of_one_le (by omega)
        · rw [SimplifyPath_of_degen pd pts tol hsmall hgt hb]
          rfl
      · rw [SimplifyPath_of_flat pd pts tol hsmall hgt]
        rfl

/-- Auxiliary: simplification keeps the last input point last. -/
theorem simplify_getLastI (pd : PerpFn) (tol : ℚ) :
    ∀ (n : ℕ) (pts : List PathPoint), pts.length ≤ n → pts ≠ [] →
      (SimplifyPath pd pts tol).getLastI = pts.getLastI := by
  intro n
  induction n with
  | zero =>
    intro pts h1 hne
    have : pts.length ≤ 2 := by omega
    rw [SimplifyPath_of_le_two pd pts tol this]
  | succ n ih =>
    intro pts h1 hne
    by_cases hsmall : pts.length ≤ 2
    · rw [SimplifyPath_of_le_two pd pts tol hsmall]
    · by_cases hgt : (simplifyMax pd pts).1 > tol
      · by_cases hb : 1 ≤ (simplifyMax pd pts).2 ∧
            (simplifyMax pd pts).2 + 1 < pts.length
        · rw [SimplifyPath_of_split pd pts tol hsmall hgt hb]
          have hRlen : 2 ≤ (SimplifyPath pd
              (pts.drop ((simplifyMax pd pts).2)) tol).length := by
            apply simplify_two_le pd tol n
            · simp only [List.length_drop]
              omega
            · simp only [List.length_drop]
              omega
          have hRne : SimplifyPath pd (pts.drop ((simplifyMax pd pts).2)) tol
              ≠ [] := by
            intro he
            rw [he] at hRlen
            simp at hRlen
          rw [getLastI_append_of_ne_nil hRne]
          rw [ih (pts.drop ((simplifyMax pd pts).2))
            (by simp only [List.length_drop]; omega)
            (by
              intro he
              have := congrArg List.length he
              simp only [List.length_drop, List.length_nil] at this
              omega)]
          exact getLastI_drop_of_lt (by omega)
        · rw [SimplifyPath_of_degen pd pts tol hsmall hgt hb]
          rfl
      · rw [SimplifyPath_of_flat pd pts tol hsmall hgt]
        rfl

/-- Auxiliary: raising the tolerance cannot lengthen the simplified list. -/
theorem simplify_length_mono (pd : PerpFn) :
    ∀ (n : ℕ) (pts : List PathPoint) (t1 t2 : ℚ), pts.length ≤ n →
      0 ≤ t1 → t1 ≤ t2 →
      (SimplifyPath pd pts t2).length ≤ (SimplifyPath pd pts t1).length := by
  intro n
  induction n with
  | zero =>
    intro pts t1 t2 h1 h0 h12
    have : pts.length ≤ 2 := by omega
    rw [SimplifyPath_of_le_two pd pts t1 this,
      SimplifyPath_of_le_two pd pts t2 this]
  | succ n ih =>
    intro pts t1 t2 h1 h0 h12
    by_cases hsmall : pts.length ≤ 2
    · rw [SimplifyPath_of_le_two pd pts t1 hsmall,
        SimplifyPath_of_le_two pd pts t2 hsmall]
    · by_cases hgt2 : (simplifyMax pd pts).1 > t2
      · have hgt1 : (simplifyMax pd pts).1 > t1 := lt_of_le_of_lt h12 hgt2
        have hb := simplifyMax_bounds pd pts t1 (by omega) h0 hgt1
        rw [SimplifyPath_of_split pd pts t2 hsmall hgt2 hb,
          SimplifyPath_of_split pd pts t1 hsmall hgt1 hb]
        have hL := ih (pts.take ((simplifyMax pd pts).2 + 1)) t1 t2
          (by simp only [List.length_take]; omega) h0 h12
        have hR := ih (pts.drop ((simplifyMax pd pts).2)) t1 t2
          (by simp only [List.length_drop]; omega) h0 h12
        have hL2 : 2 ≤ (SimplifyPath pd
            (pts.take ((simplifyMax pd pts).2 + 1)) t2).length := by
          apply simplify_two_le pd t2 n
          · simp only [List.length_take]
            omega
          · simp only [List.length_take]
            omega
        simp only [List.length_append, List.length_dropLast]
        omega
      · rw [SimplifyPath_of_flat pd pts t2 hsmall hgt2]
        have h2le : 2 ≤ (SimplifyPath pd pts t1).length :=
          simplify_two_le pd t1 (n + 1) pts h1 (by omega)
        simpa using h2le

/-- C3: for a nonnegative tolerance (for a negative tolerance and a
degenerate deviation pattern the Go recursion does not terminate, which the
total model cannot express), `SimplifyPath` returns inputs of length ≤ 2
unchanged, and for every input the output is a subsequence of the input that
still contains the first and the last input point. -/
theorem C3_simplify_contract (pd : PerpFn) (pts : List PathPoint) (tol : ℚ)
    (h0 : 0 ≤ tol) :
    (pts.length ≤ 2 → SimplifyPath pd pts tol = pts) ∧
    List.Sublist (SimplifyPath pd pts tol) pts ∧
    (pts ≠ [] → pts.headI ∈ SimplifyPath pd pts tol ∧
      pts.getLastI ∈ SimplifyPath pd pts tol) := by
  refine ⟨fun h => SimplifyPath_of_le_two pd pts tol h,
    simplify_sublist pd tol pts.length pts (le_refl _), ?_⟩
  intro hne
  have hres : SimplifyPath pd pts tol ≠ [] := by
    by_cases hsmall : pts.length ≤ 2
    · rw [SimplifyPath_of_le_two pd pts tol hsmall]
      exact hne
    · have h2 := simplify_two_le pd tol pts.length pts (le_refl _) (by omega)
      intro he
      rw [he] at h2
      simp at h2
  constructor
  · rw [show pts.headI =
      (SimplifyPath pd pts tol).headI from
      (simplify_headI pd tol pts.length pts (le_refl _) hne).symm]
    exact headI_mem_of_ne_nil hres
  · rw [show pts.getLastI =
      (SimplifyPath pd pts tol).getLastI from
      (simplify_getLastI pd tol pts.length pts (le_refl _) hne).symm]
    exact getLastI_mem_of_ne_nil hres

/-- pd0 is the everywhere-zero perpendicular deviation. -/
def pd0 : PerpFn := fun _ _ _ => 0

/-- Witness for C3: a two-point input is unchanged, and on a three-point
input the output is a subsequence containing the first and last points. -/
theorem C3_simplify_contract_witness :
    SimplifyPath pd0 [ptA, ptB] 1 = [ptA, ptB] ∧
    List.Sublist (SimplifyPath pd0 [ptA, ptB, ptC] 1) [ptA, ptB, ptC] ∧
    ptA ∈ SimplifyPath pd0 [ptA, ptB, ptC] 1 ∧
    ptC ∈ SimplifyPath pd0 [ptA, ptB, ptC] 1 := by
  refine ⟨(C3_simplify_contract pd0 [ptA, ptB] 1 (by norm_num)).1 (by decide),
    (C3_simplify_contract pd0 [ptA, ptB, ptC] 1 (by norm_num)).2.1, ?_, ?_⟩
  · exact ((C3_simplify_contract pd0 [ptA, ptB, ptC] 1 (by norm_num)).2.2
      (List.cons_ne_nil ptA [ptB, ptC])).1
  · exact ((C3_simplify_contract pd0 [ptA, ptB, ptC] 1 (by norm_num)).2.2
      (List.cons_ne_nil ptA [ptB, ptC])).2

/-- C4: for tolerances 0 ≤ tol1 ≤ tol2, the simplified list at tol2 is no
longer than the simplified list at tol1 — the result length is monotonically
non-increasing in the tolerance. -/
theorem C4_simplify_monotone (pd : PerpFn) (pts : List PathPoint)
    (tol1 tol2 : ℚ) (h0 : 0 ≤ tol1) (h12 : tol1 ≤ tol2) :
    (SimplifyPath pd pts tol2).length ≤ (SimplifyPath pd pts tol1).length :=
  simplify_length_mono pd pts.length pts tol1 tol2 (le_refl _) h0 h12

/-- Witness for C4: concrete three-point instance at tolerances 1 ≤ 2. -/
theorem C4_simplify_monotone_witness :
    (SimplifyPath pd0 [ptA, ptB, ptC] 2).length ≤
      (SimplifyPath pd0 [ptA, ptB, ptC] 1).length :=
  C4_simplify_monotone pd0 [ptA, ptB, ptC] 1 2 (by norm_num) (by norm_num)

/-- dC1 is an explicit distance table realizing the spec's spike example on
the three points with latitudes 0, 1, 2: d(A,B) = d(B,C) = 1000 and
d(A,C) = 10. -/
def dC1 : DistFn := fun lat1 _ lat2 _ =>
  if (lat1 = 0 ∧ lat2 = 1) ∨ (lat1 = 1 ∧ lat2 = 0) then 1000
  else if (lat1 = 1 ∧ lat2 = 2) ∨ (lat1 = 2 ∧ lat2 = 1) then 1000
  else if (lat1 = 0 ∧ lat2 = 2) ∨ (lat1 = 2 ∧ lat2 = 0) then 10
  else 0

/-- dBoundary is the same table with d(A,C) exactly at the 500 m threshold. -/
def dBoundary : DistFn := fun lat1 _ lat2 _ =>
  if (lat1 = 0 ∧ lat2 = 1) ∨ (lat1 = 1 ∧ lat2 = 0) then 1000
  else if (lat1 = 1 ∧ lat2 = 2) ∨ (lat1 = 2 ∧ lat2 = 1) then 1000
  else if (lat1 = 0 ∧ lat2 = 2) ∨ (lat1 = 2 ∧ lat2 = 0) then 500
  else 0

/-- Auxiliary: counting invariants of the prune loop — one representative
point per cluster, point counts sum to the points consumed (including those
inside the open cluster), and removals plus clusters account for every
point. -/
theorem pruneAux_counts (d : DistFn) (m : ℚ) :
    ∀ (rest : List PathPoint) (cl : StationaryCluster),
      (pruneAux d m cl rest).points.length =
        (pruneAux d m cl rest).clusters.length ∧
      ((pruneAux d m cl rest).clusters.map (fun c => c.pointCount)).sum =
        cl.pointCount + rest.length ∧
      (pruneAux d m cl rest).removed.length +
        (pruneAux d m cl rest).clusters.length = rest.length + 1 := by
  intro rest
  induction rest with
  | nil =>
    intro cl
    refine ⟨rfl, ?_, rfl⟩
    simp [pruneAux]
  | cons pt tl ih =>
    intro cl
    by_cases habs : d cl.lat cl.lon pt.lat pt.lon < m
    · have heq : pruneAux d m cl (pt :: tl) =
          ⟨(pruneAux d m (absorbInto cl pt) tl).points,
            pt :: (pruneAux d m (absorbInto cl pt) tl).removed,
            (pruneAux d m (absorbInto cl pt) tl).clusters⟩ := by
        simp only [pruneAux, if_pos habs]
      obtain ⟨h1, h2, h3⟩ := ih (absorbInto cl pt)
      rw [heq]
      have hcount : (absorbInto cl pt).pointCount = cl.pointCount + 1 := rfl
      rw [hcount] at h2
      refine ⟨h1, ?_, ?_⟩
      · simp only [List.length_cons]
        rw [h2]
        omega
      · simp only [List.length_cons]
        omega
    · have heq : pruneAux d m cl (pt :: tl) =
          ⟨clusterRep cl :: (pruneAux d m (newClusterAt pt) tl).points,
            (pruneAux d m (newClusterAt pt) tl).removed,
            cl :: (pruneAux d m (newClusterAt pt) tl).clusters⟩ := by
        simp only [pruneAux, if_neg habs]
      obtain ⟨h1, h2, h3⟩ := ih (newClusterAt pt)
      rw [heq]
      have hcount : (newClusterAt pt).pointCount = 1 := rfl
      rw [hcount] at h2
      refine ⟨?_, ?_, ?_⟩
      · simp only [List.length_cons, h1]
      · simp only [List.map_cons, List.sum_cons, List.length_cons]
        rw [h2]
        omega
      · simp only [List.length_cons]
        omega

/-- Auxiliary: the open cluster's anchor position survives into the final
cluster list — absorbing points never moves the anchor. -/
theorem pruneAux_anchor_mem (d : DistFn) (m : ℚ) :
    ∀ (rest : List PathPoint) (cl : StationaryCluster),
      ∃ c ∈ (pruneAux d m cl rest).clusters, c.lat = cl.lat ∧ c.lon = cl.lon := by
  intro rest
  induction rest with
  | nil =>
    intro cl
    exact ⟨cl, by simp [pruneAux], rfl, rfl⟩
  | cons pt tl ih =>
    intro cl
    by_cases habs : d cl.lat cl.lon pt.lat pt.lon < m
    · obtain ⟨c, hc, hlat, hlon⟩ := ih (absorbInto cl pt)
      refine ⟨c, ?_, hlat, hlon⟩
      simp only [pruneAux, if_pos habs]
      exact hc
    · refine ⟨cl, ?_, rfl, rfl⟩
      simp only [pruneAux, if_neg habs]
      exact List.mem_cons_self _ _

/-- Auxiliary: every removed point is strictly within `m` of the anchor of a
cluster in the result (the cluster that absorbed it). -/
theorem pruneAux_removed_near (d : DistFn) (m : ℚ) :
    ∀ (rest : List PathPoint) (cl : StationaryCluster),
      ∀ p ∈ (pruneAux d m cl rest).removed,
        ∃ c ∈ (pruneAux d m cl rest).clusters,
          d c.lat c.lon p.lat p.lon < m := by
  intro rest
  induction rest with
  | nil =>
    intro cl p hp
    simp [pruneAux] at hp
  | cons pt tl ih =>
    intro cl p hp
    by_cases habs : d cl.lat cl.lon pt.lat pt.lon < m
    · rw [show pruneAux d m cl (pt :: tl) =
          ⟨(pruneAux d m (absorbInto cl pt) tl).points,
            pt :: (pruneAux d m (absorbInto cl pt) tl).removed,
            (pruneAux d m (absorbInto cl pt) tl).clusters⟩ from by
        simp only [pruneAux, if_pos habs]] at hp ⊢
      rcases List.mem_cons.mp hp with heq | hmem
      · obtain ⟨c, hc, hlat, hlon⟩ := pruneAux_anchor_mem d m tl
          (absorbInto cl pt)
        refine ⟨c, hc, ?_⟩
        rw [hlat, hlon, heq]
        exact habs
      · exact ih _ p hmem
    · rw [show pruneAux d m cl (pt :: tl) =
          ⟨clusterRep cl :: (pruneAux d m (newClusterAt pt) tl).points,
            (pruneAux d m (newClusterAt pt) tl).removed,
            cl :: (pruneAux d m (newClusterAt pt) tl).clusters⟩ from by
        simp only [pruneAux, if_neg habs]] at hp ⊢
      obtain ⟨c, hc, hd⟩ := ih (newClusterAt pt) p hp
      exact ⟨c, List.mem_cons_of_mem _ hc, hd⟩

/-- C9: for non-empty input `PruneStationaryPoints` keeps exactly one
representative point per cluster, the cluster point counts sum to the input
length, and the number of removed points is the input length minus the
number of clusters; for empty input all three outputs are empty. -/
theorem C9_prune_counts (d : DistFn) (pts : List PathPoint) (m : ℚ) :
    (pts = [] → PruneStationaryPoints d pts m = ⟨[], [], []⟩) ∧
    (pts ≠ [] →
      (PruneStationaryPoints d pts m).points.length =
        (PruneStationaryPoints d pts m).clusters.length ∧
      ((PruneStationaryPoints d pts m).clusters.map
        (fun c => c.pointCount)).sum = pts.length ∧
      (PruneStationaryPoints d pts m).removed.length =
        pts.length - (PruneStationaryPoints d pts m).clusters.length) := by
  match pts with
  | [] =>
    exact ⟨fun _ => rfl, fun h => absurd rfl h⟩
  | [p] =>
    refine ⟨fun h => by simp at h, fun _ => ?_⟩
    exact ⟨rfl, by simp [PruneStationaryPoints, newClusterAt], rfl⟩
  | p0 :: p1 :: tl =>
    refine ⟨fun h => by simp at h, fun _ => ?_⟩
    have heq : PruneStationaryPoints d (p0 :: p1 :: tl) m =
        pruneAux d m (newClusterAt p0) (p1 :: tl) := rfl
    obtain ⟨h1, h2, h3⟩ := pruneAux_counts d m (p1 :: tl) (newClusterAt p0)
    have hcount : (newClusterAt p0).pointCount = 1 := rfl
    rw [hcount] at h2
    rw [heq]
    refine ⟨h1, ?_, ?_⟩
    · rw [h2]
      simp only [List.length_cons]
      omega
    · simp only [List.length_cons] at h3 ⊢
      omega

/-- dZero is the everywhere-zero distance table: every point is absorbed
into the first cluster for any positive threshold. -/
def dZero : DistFn := fun _ _ _ _ => 0

/-- Witness for C9: three points collapsing into one cluster, and the empty
input. -/
theorem C9_prune_counts_witness :
    ((PruneStationaryPoints dZero [ptA, ptB, ptC] 10).points.length =
      (PruneStationaryPoints dZero [ptA, ptB, ptC] 10).clusters.length ∧
    ((PruneStationaryPoints dZero [ptA, ptB, ptC] 10).clusters.map
      (fun c => c.pointCount)).sum = 3 ∧
    (PruneStationaryPoints dZero [ptA, ptB, ptC] 10).removed.length =
      3 - (PruneStationaryPoints dZero [ptA, ptB, ptC] 10).clusters.length) ∧
    PruneStationaryPoints dZero [] 10 = ⟨[], [], []⟩ := by
  constructor
  · exact (C9_prune_counts dZero [ptA, ptB, ptC] 10).2
      (List.cons_ne_nil ptA [ptB, ptC])
  · exact (C9_prune_counts dZero [] 10).1 rfl

/-- C5: every point removed by `PruneStationaryPoints` lies strictly within
`minDist` of the anchor of a result cluster — the cluster that absorbed it,
whose anchor (the first point admitted) never moves while the cluster
grows. -/
theorem C5_prune_removed_within (d : DistFn) (pts : List PathPoint) (m : ℚ) :
    ∀ p ∈ (PruneStationaryPoints d pts m).removed,
      ∃ c ∈ (PruneStationaryPoints d pts m).clusters,
        d c.lat c.lon p.lat p.lon < m := by
  match pts with
  | [] => intro p hp; simp [PruneStationaryPoints] at hp
  | [q] => intro p hp; simp [PruneStationaryPoints] at hp
  | p0 :: p1 :: tl =>
    intro p hp
    exact pruneAux_removed_near d m (p1 :: tl)
      ⟨p0.lat, p0.lon, p0.timestamp, p0.timestamp, 1⟩ p hp

/-- Witness for C5: with the zero distance table both later points are
absorbed by the cluster anchored at the first point, 0 < 10. -/
theorem C5_prune_removed_within_witness :
    ∃ c ∈ (PruneStationaryPoints dZero [ptA, ptB, ptC] 10).clusters,
      dZero c.lat c.lon ptB.lat ptB.lon < 10 := by
  have hrem : (PruneStationaryPoints dZero [ptA, ptB, ptC] 10).removed =
      [ptB, ptC] := by decide
  exact C5_prune_removed_within dZero [ptA, ptB, ptC] 10 ptB
    (by rw [hrem]; exact List.mem_cons_self _ _)

/-- Modelled from the spec: "the merged position is the point-count-weighted
average of the two clusters' positions". -/
def weightedAveragePos (c1 c2 : StationaryCluster) : ℚ × ℚ :=
  ((c1.lat * c1.pointCount + c2.lat * c2.pointCount)
      / (c1.pointCount + c2.pointCount),
    (c1.lon * c1.pointCount + c2.lon * c2.pointCount)
      / (c1.pointCount + c2.pointCount))

/-- C2: in the timeline cluster-merge loop a cluster merges with the most
recently merged cluster iff the distance between their positions is
≤ 500 m and the gap from the predecessor's end to the cluster's start is
≤ 30 minutes (the merge keeps the list length, an append grows it); the
merged cluster replaces the predecessor, its position is the
point-count-weighted average, its span end and count are combined; hence two
clusters 200 m apart with a 10-minute gap collapse to one, while clusters
2 km apart are never merged whatever the gap. -/
theorem mergeClustersStep_spec (d : DistFn) (ms : List StationaryCluster)
    (lastC c : StationaryCluster) (hlast : ms.getLast? = some lastC) :
    ((mergeClustersStep d ms c).length = ms.length ↔
      d lastC.lat lastC.lon c.lat c.lon ≤ mergeDistanceMeters ∧
        c.startTS - lastC.endTS ≤ mergeMaxGapSeconds) ∧
    (d lastC.lat lastC.lon c.lat c.lon ≤ mergeDistanceMeters ∧
        c.startTS - lastC.endTS ≤ mergeMaxGapSeconds →
      ∃ m, mergeClustersStep d ms c = ms.dropLast ++ [m] ∧
        (m.lat, m.lon) = weightedAveragePos lastC c ∧
        m.startTS = lastC.startTS ∧ m.endTS = c.endTS ∧
        m.pointCount = lastC.pointCount + c.pointCount) ∧
    (¬(d lastC.lat lastC.lon c.lat c.lon ≤ mergeDistanceMeters ∧
        c.startTS - lastC.endTS ≤ mergeMaxGapSeconds) →
      mergeClustersStep d ms c = ms ++ [c]) := by
  have hne : ms ≠ [] := by
    intro h
    rw [h] at hlast
    simp at hlast
  have hlen : 0 < ms.length := List.length_pos.mpr hne
  by_cases hcond : d lastC.lat lastC.lon c.lat c.lon ≤ mergeDistanceMeters ∧
      c.startTS - lastC.endTS ≤ mergeMaxGapSeconds
  · refine And.intro ?_ (And.intro ?_ ?_)
    · simp only [mergeClustersStep, hlast, if_pos hcond]
      simp only [List.length_append, List.length_dropLast, List.length_cons,
        List.length_nil]
      constructor
      · intro _
        exact hcond
      · intro _
        omega
    · intro _
      refine ⟨{ lastC with
          lat := (lastC.lat * lastC.pointCount + c.lat * c.pointCount) /
            (lastC.pointCount + c.pointCount),
          lon := (lastC.lon * lastC.pointCount + c.lon * c.pointCount) /
            (lastC.pointCount + c.pointCount),
          endTS := c.endTS,
          pointCount := lastC.pointCount + c.pointCount }, ?_, rfl, rfl, rfl, rfl⟩
      simp only [mergeClustersStep, hlast, if_pos hcond]
      push_cast
      rfl
    · intro h
      exact absurd hcond h
  · refine And.intro ?_ (And.intro ?_ ?_)
    · simp only [mergeClustersStep, hlast, if_neg hcond]
      simp only [List.length_append, List.length_cons, List.length_nil]
      constructor
      · intro h
        omega
      · intro h
        exact absurd h hcond
    · intro h
      exact absurd h hcond
    · intro _
      simp only [mergeClustersStep, hlast, if_neg hcond]

theorem C2_cluster_merge :
    (∀ (d : DistFn) (ms : List StationaryCluster) (lastC c : StationaryCluster),
      ms.getLast? = some lastC →
      ((mergeClustersStep d ms c).length = ms.length ↔
        d lastC.lat lastC.lon c.lat c.lon ≤ mergeDistanceMeters ∧
          c.startTS - lastC.endTS ≤ mergeMaxGapSeconds) ∧
      (d lastC.lat lastC.lon c.lat c.lon ≤ mergeDistanceMeters ∧
          c.startTS - lastC.endTS ≤ mergeMaxGapSeconds →
        ∃ m, mergeClustersStep d ms c = ms.dropLast ++ [m] ∧
          (m.lat, m.lon) = weightedAveragePos lastC c ∧
          m.startTS = lastC.startTS ∧ m.endTS = c.endTS ∧
          m.pointCount = lastC.pointCount + c.pointCount) ∧
      (¬(d lastC.lat lastC.lon c.lat c.lon ≤ mergeDistanceMeters ∧
          c.startTS - lastC.endTS ≤ mergeMaxGapSeconds) →
        mergeClustersStep d ms c = ms ++ [c])) ∧
    (∀ (d : DistFn) (c1 c2 : StationaryCluster),
      d c1.lat c1.lon c2.lat c2.lon = 200 → c2.startTS - c1.endTS = 600 →
      (mergeClusters d [c1, c2]).length = 1) ∧
    (∀ (d : DistFn) (c1 c2 : StationaryCluster),
      d c1.lat c1.lon c2.lat c2.lon = 2000 →
      mergeClusters d [c1, c2] = [c1, c2]) := by
  refine ⟨mergeClustersStep_spec, ?_, ?_⟩
  · intro d c1 c2 hdist hgap
    have hcond : d c1.lat c1.lon c2.lat c2.lon ≤ mergeDistanceMeters ∧
        c2.startTS - c1.endTS ≤ mergeMaxGapSeconds := by
      rw [hdist, hgap]
      exact ⟨by norm_num [mergeDistanceMeters], by norm_num [mergeMaxGapSeconds]⟩
    have h1 : mergeClusters d [c1, c2] =
        mergeClustersStep d (mergeClustersStep d [] c1) c2 := rfl
    have h2 : mergeClustersStep d [] c1 = [c1] := rfl
    rw [h1, h2]
    simp only [mergeClustersStep, List.getLast?_singleton, if_pos hcond]
    rfl
  · intro d c1 c2 hdist
    have hcond : ¬(d c1.lat c1.lon c2.lat c2.lon ≤ mergeDistanceMeters ∧
        c2.startTS - c1.endTS ≤ mergeMaxGapSeconds) := by
      rw [hdist]
      intro h
      have := h.1
      norm_num [mergeDistanceMeters] at this
    have h1 : mergeClusters d [c1, c2] =
        mergeClustersStep d (mergeClustersStep d [] c1) c2 := rfl
    have h2 : mergeClustersStep d [] c1 = [c1] := rfl
    rw [h1, h2]
    simp only [mergeClustersStep, List.getLast?_singleton, if_neg hcond]
    rfl

/-- dNear is a constant distance of 200 m. -/
def dNear : DistFn := fun _ _ _ _ => 200

/-- dFar is a constant distance of 2000 m. -/
def dFar : DistFn := fun _ _ _ _ => 2000

/-- clustA and clustB are two concrete stationary clusters whose gap is
600 s (10 minutes). -/
def clustA : StationaryCluster := ⟨0, 0, 0, 900, 3⟩

/-- clustB starts 600 s after clustA ends. -/
def clustB : StationaryCluster := ⟨1, 1, 1500, 2400, 1⟩

/-- Witness for C2: with a 200 m distance the two concrete clusters merge
into one; with a 2 km distance they stay separate. -/
theorem C2_cluster_merge_witness :
    (mergeClusters dNear [clustA, clustB]).length = 1 ∧
    mergeClusters dFar [clustA, clustB] = [clustA, clustB] := by
  constructor
  · exact C2_cluster_merge.2.1 dNear clustA clustB rfl (by decide)
  · exact C2_cluster_merge.2.2 dFar clustA clustB rfl

/-- Counterexample for C1 as stated: with dist(A,B) = dist(B,C) = 1000 > 500
and dist(A,C) = 500 ≤ 500, the claim's rule (`dist(A,C) <= threshold`)
classifies B a spike, but the code tests `distAC < thresholdMeters` strictly
(paths.go line 210) and keeps all three points. -/
theorem C1_counterexample :
    dBoundary ptA.lat ptA.lon ptB.lat ptB.lon > 500 ∧
    dBoundary ptB.lat ptB.lon ptC.lat ptC.lon > 500 ∧
    dBoundary ptA.lat ptA.lon ptC.lat ptC.lon ≤ 500 ∧
    RemoveSpikes dBoundary [ptA, ptB, ptC] 500 = ⟨[ptA, ptB, ptC], []⟩ := by
  decide

/-- C1 (amended): a point B between the last kept point A and the upcoming
point C is classified a spike and dropped iff dist(A,B) > threshold AND
dist(B,C) > threshold AND dist(A,C) < threshold (strictly, not ≤): in the
spike case the removal keeps A as the comparison point, otherwise B becomes
the new last kept point; the sequence [A, B, C] with dist(A,B) = dist(B,C) =
1000 m, dist(A,C) = 10 m at threshold 500 m removes exactly B, and any input
of length < 3 is returned unchanged. -/
theorem C1_spike_rule :
    (∀ (d : DistFn) (pts : List PathPoint) (t : ℚ), pts.length < 3 →
      RemoveSpikes d pts t = ⟨pts, []⟩) ∧
    (∀ (d : DistFn) (t : ℚ) (A B C : PathPoint) (tl : List PathPoint),
      (d A.lat A.lon B.lat B.lon > t ∧ d B.lat B.lon C.lat C.lon > t ∧
          d A.lat A.lon C.lat C.lon < t →
        removeSpikesAux d t A (B :: C :: tl) =
          ((removeSpikesAux d t A (C :: tl)).1,
            B :: (removeSpikesAux d t A (C :: tl)).2)) ∧
      (¬(d A.lat A.lon B.lat B.lon > t ∧ d B.lat B.lon C.lat C.lon > t ∧
          d A.lat A.lon C.lat C.lon < t) →
        removeSpikesAux d t A (B :: C :: tl) =
          (B :: (removeSpikesAux d t B (C :: tl)).1,
            (removeSpikesAux d t B (C :: tl)).2))) ∧
    (∀ (d : DistFn) (A B C : PathPoint),
      d A.lat A.lon B.lat B.lon = 1000 → d B.lat B.lon C.lat C.lon = 1000 →
      d A.lat A.lon C.lat C.lon = 10 →
      RemoveSpikes d [A, B, C] 500 = ⟨[A, C], [B]⟩) := by
  refine ⟨?_, ?_, ?_⟩
  · intro d pts t h
    match pts with
    | [] => rfl
    | [p] => rfl
    | [p, q] => rfl
    | p :: q :: r :: tl =>
      simp only [List.length_cons] at h
      omega
  · intro d t A B C tl
    constructor
    · intro h
      simp only [removeSpikesAux, if_pos h]
    · intro h
      simp only [removeSpikesAux, if_neg h]
  · intro d A B C h1 h2 h3
    have hcond : d A.lat A.lon B.lat B.lon > 500 ∧
        d B.lat B.lon C.lat C.lon > 500 ∧ d A.lat A.lon C.lat C.lon < 500 := by
      rw [h1, h2, h3]
      norm_num
    show (if (3 : ℕ) < 3 then SpikeResult.mk [A, B, C] [] else
      ⟨A :: (removeSpikesAux d 500 A [B, C]).1,
        (removeSpikesAux d 500 A [B, C]).2⟩) = ⟨[A, C], [B]⟩
    rw [if_neg (by omega)]
    have : removeSpikesAux d 500 A [B, C] = ([C], [B]) := by
      simp only [removeSpikesAux, if_pos hcond]
    rw [this]

/-- Auxiliary: the spike loop splits its input into a kept sublist and a
removed sublist whose interleaving is the input. -/
theorem removeSpikesAux_partition (d : DistFn) (t : ℚ) :
    ∀ (rest : List PathPoint) (A : PathPoint),
      List.Sublist (removeSpikesAux d t A rest).1 rest ∧
      List.Sublist (removeSpikesAux d t A rest).2 rest ∧
      ((removeSpikesAux d t A rest).1 ++ (removeSpikesAux d t A rest).2).Perm
        rest := by
  intro rest
  induction rest with
  | nil =>
    intro A
    exact ⟨List.Sublist.refl _, List.Sublist.refl _, List.Perm.refl _⟩
  | cons B rest ih =>
    intro A
    cases rest with
    | nil =>
      have heq : removeSpikesAux d t A [B] = ([B], []) := rfl
      rw [heq]
      exact ⟨List.Sublist.refl _, List.nil_sublist _, by simp⟩
    | cons C tl =>
      by_cases hcond : d A.lat A.lon B.lat B.lon > t ∧
          d B.lat B.lon C.lat C.lon > t ∧ d A.lat A.lon C.lat C.lon < t
      · have heq : removeSpikesAux d t A (B :: C :: tl) =
            ((removeSpikesAux d t A (C :: tl)).1,
              B :: (removeSpikesAux d t A (C :: tl)).2) := by
          simp only [removeSpikesAux, if_pos hcond]
        obtain ⟨hk, hr, hp⟩ := ih A
        rw [heq]
        refine ⟨hk.cons B, hr.cons₂ B, ?_⟩
        have h1 : ((removeSpikesAux d t A (C :: tl)).1 ++
            B :: (removeSpikesAux d t A (C :: tl)).2).Perm
            (B :: ((removeSpikesAux d t A (C :: tl)).1 ++
              (removeSpikesAux d t A (C :: tl)).2)) := List.perm_middle
        exact h1.trans (hp.cons B)
      · have heq : removeSpikesAux d t A (B :: C :: tl) =
            (B :: (removeSpikesAux d t B (C :: tl)).1,
              (removeSpikesAux d t B (C :: tl)).2) := by
          simp only [removeSpikesAux, if_neg hcond]
        obtain ⟨hk, hr, hp⟩ := ih B
        rw [heq]
        exact ⟨hk.cons₂ B, hr.cons B, by simpa using hp.cons B⟩

/-- C10: `RemoveSpikes` partitions its input — the kept and removed lists
are both subsequences of the input (preserving relative order), together
they form a permutation of the input (every input point lands in exactly one
of them, with multiplicity), and their lengths sum to the input length. -/
theorem C10_spike_partition (d : DistFn) (pts : List PathPoint) (t : ℚ) :
    List.Sublist (RemoveSpikes d pts t).points pts ∧
    List.Sublist (RemoveSpikes d pts t).removed pts ∧
    ((RemoveSpikes d pts t).points ++ (RemoveSpikes d pts t).removed).Perm
      pts ∧
    (RemoveSpikes d pts t).points.length +
      (RemoveSpikes d pts t).removed.length = pts.length := by
  match pts with
  | [] =>
    exact ⟨List.Sublist.refl _, List.Sublist.refl _, List.Perm.refl _, rfl⟩
  | p0 :: rest =>
    by_cases hlen : (p0 :: rest).length < 3
    · have heq : RemoveSpikes d (p0 :: rest) t = ⟨p0 :: rest, []⟩ := by
        simp only [RemoveSpikes, if_pos hlen]
      rw [heq]
      exact ⟨List.Sublist.refl _, List.nil_sublist _, by simp, by simp⟩
    · have heq : RemoveSpikes d (p0 :: rest) t =
          ⟨p0 :: (removeSpikesAux d t p0 rest).1,
            (removeSpikesAux d t p0 rest).2⟩ := by
        simp only [RemoveSpikes, if_neg hlen]
      obtain ⟨hk, hr, hp⟩ := removeSpikesAux_partition d t rest p0
      rw [heq]
      have hperm : ((p0 :: (removeSpikesAux d t p0 rest).1) ++
          (removeSpikesAux d t p0 rest).2).Perm (p0 :: rest) := by
        simpa using hp.cons p0
      refine ⟨hk.cons₂ p0, hr.cons p0, hperm, ?_⟩
      have hlen2 := hperm.length_eq
      simp only [List.length_append, List.length_cons] at hlen2 ⊢
      omega

/-- Witness for C1 (amended): the 1000/1000/10 table removes exactly B at
threshold 500, and a two-point input is returned unchanged. -/
theorem C1_spike_rule_witness :
    RemoveSpikes dC1 [ptA, ptB, ptC] 500 = ⟨[ptA, ptC], [ptB]⟩ ∧
    RemoveSpikes dC1 [ptA, ptB] 500 = ⟨[ptA, ptB], []⟩ := by
  constructor
  · exact C1_spike_rule.2.2 dC1 ptA ptB ptC (by decide) (by decide) (by decide)
  · exact C1_spike_rule.1 dC1 [ptA, ptB] 500 (by decide)
